import Mathlib

/-!
Verification of the auto-tagging / content-classification module of the
VlogSphere backend (`services/aiService.js`, given as `src/unnamed/part_000`,
lines 1-215).  The four exported functions — `generateTags`,
`suggestCategories`, `analyzeSentiment`, `extractKeyPhrases` — are embedded
below as executable Lean functions.

Modelling conventions, shared by all definitions:

* JavaScript strings are modelled by Lean `String`; a nullable / possibly
  non-string argument is modelled by `Option String` (`none` stands for a
  value that is not a string, on which JS string methods throw).
* `String.prototype.toLowerCase` is modelled ASCII-wise (`jsLowerChar`).
  JS also lowercases non-ASCII letters, but every non-ASCII character is
  outside the `\w` class and is therefore removed by the punctuation
  stripping that immediately follows every `toLowerCase()` call in the
  source, so the composition of the two steps agrees with the JS one.
* Plain JS objects used as dictionaries inherit from `Object.prototype`.
  This matters twice in the source and is modelled explicitly:
  - `CATEGORY_TAGS[category]` (line 78) hits inherited properties such as
    `"constructor"` for categories outside the table (`categoryLookup`);
  - `wordFreq[token]` (line 68) misbehaves for the tokens `"__proto__"`
    (assignment is swallowed by the inherited accessor, so no own property
    is ever created) and `"constructor"` (the initial read returns the
    inherited `Object` function, and `Object + 1` is a string, so the
    stored count is a string from then on).  Lowercasing guarantees these
    are the only two reachable inherited keys.
* `Array.prototype.sort` with the comparator `(a, b) => b - a` is a stable
  sort (ECMAScript 2019+); it is modelled by the stable insertion sort
  `stableSort`.  When a comparison involves a string-valued count the JS
  comparator returns `NaN`, which the spec of `Array.prototype.sort` maps
  to `+0` ("equal"); `precJs` mirrors that.  (For such inconsistent
  comparators the resulting order is implementation-defined in ECMAScript;
  no theorem below depends on it.)
* Exceptions are modelled with `Except JsErr`; every exported function
  wraps its body in `try/catch` and returns a fallback on `error`.
-/

set_option maxRecDepth 4000

inductive JsErr where
  | typeError
deriving DecidableEq

/-- A value stored in the plain-object frequency table `wordFreq`
(`part_000` lines 66-69).  Counts are normally numbers; for the key
`"constructor"` the first read returns the inherited `Object` constructor
and `Object + 1` evaluates to a string, which stays a string afterwards. -/
inductive JsCount where
  | num (n : Nat)
  | str
deriving DecidableEq

/-- ASCII lowercasing of one character, as performed by
`String.prototype.toLowerCase` on the ASCII range (codepoints 65-90 map to
97-122, everything else in ASCII is fixed). -/
def jsLowerChar (c : Char) : Char :=
  if h : 65 ≤ c.toNat ∧ c.toNat ≤ 90 then
    Char.ofNatAux (c.toNat + 32) (Or.inl (by omega))
  else c

/-- Membership in the JS regex class `\s` (whitespace), used by
`replace(/\s+/g, ...)`, `split(/\s+/)` and `String.prototype.trim`. -/
def isJsSpace (c : Char) : Bool :=
  (9 ≤ c.toNat && c.toNat ≤ 13) || c.toNat = 32 || c.toNat = 160 ||
  c.toNat = 0x1680 || (0x2000 ≤ c.toNat && c.toNat ≤ 0x200a) ||
  c.toNat = 0x2028 || c.toNat = 0x2029 || c.toNat = 0x202f ||
  c.toNat = 0x205f || c.toNat = 0x3000 || c.toNat = 0xfeff

/-- Membership in the JS regex class `\w`: `[A-Za-z0-9_]`. -/
def isWordChar (c : Char) : Bool :=
  ('a' ≤ c && c ≤ 'z') || ('A' ≤ c && c ≤ 'Z') || ('0' ≤ c && c ≤ '9') || c = '_'

/-- Source: `COMMON_TAGS` (`part_000` lines 5-11). -/
def COMMON_TAGS : List String :=
  ["vlog", "daily", "life", "adventure", "travel", "food", "tech",
   "lifestyle", "fitness", "music", "art", "photography", "diy",
   "tutorial", "review", "challenge", "comedy", "gaming", "sports",
   "health", "education", "business", "entertainment", "fashion",
   "beauty", "cooking", "nature", "city", "culture", "experience"]

/-- Source: `CATEGORY_TAGS` (`part_000` lines 14-33), in object-literal insertion
order.  Note the uppercase entry `"AI"` in `technology` (line 15). -/
def CATEGORY_TAGS : List (String × List String) :=
  [("technology", ["tech", "gadget", "software", "hardware", "innovation", "digital", "AI", "coding", "programming"]),
   ("travel", ["travel", "adventure", "explore", "journey", "destination", "culture", "vacation", "trip", "wanderlust"]),
   ("lifestyle", ["lifestyle", "daily", "routine", "habits", "wellness", "mindfulness", "productivity", "selfcare"]),
   ("food", ["food", "cooking", "recipe", "kitchen", "culinary", "delicious", "meal", "restaurant", "taste"]),
   ("fashion", ["fashion", "style", "outfit", "clothing", "trend", "design", "wardrobe", "accessories"]),
   ("fitness", ["fitness", "workout", "exercise", "health", "gym", "training", "strength", "cardio", "yoga"]),
   ("music", ["music", "song", "melody", "performance", "concert", "instrument", "band", "artist", "rhythm"]),
   ("art", ["art", "creative", "painting", "drawing", "design", "artist", "gallery", "masterpiece", "inspiration"]),
   ("business", ["business", "entrepreneur", "startup", "marketing", "success", "leadership", "strategy", "growth"]),
   ("education", ["education", "learning", "tutorial", "knowledge", "study", "lesson", "teaching", "skill"]),
   ("entertainment", ["entertainment", "fun", "show", "performance", "comedy", "drama", "movie", "celebrity"]),
   ("gaming", ["gaming", "game", "playthrough", "stream", "esports", "console", "pc", "multiplayer"]),
   ("sports", ["sports", "athlete", "competition", "training", "game", "championship", "fitness", "exercise"]),
   ("health", ["health", "wellness", "medical", "nutrition", "mentalhealth", "selfcare", "healing", "recovery"]),
   ("science", ["science", "research", "discovery", "experiment", "laboratory", "technology", "innovation"]),
   ("photography", ["photography", "photo", "camera", "shoot", "portrait", "landscape", "editing", "visual"]),
   ("diy", ["diy", "craft", "handmade", "project", "creative", "build", "make", "tutorial"]),
   ("other", ["vlog", "video", "content", "creator", "youtube", "social", "media"])]

/-- The 18 fixed category identifiers, in table order. -/
def categoryNames : List String := CATEGORY_TAGS.map Prod.fst

/-- The `"other"` category keyword list (`part_000` line 32), used as the
fallback of `CATEGORY_TAGS[category] || CATEGORY_TAGS.other` (line 78). -/
def OTHER_TAGS : List String :=
  ["vlog", "video", "content", "creator", "youtube", "social", "media"]

/-- The English stopword list of the external `natural` npm package
(`require("natural").stopwords`, `part_000` line 2).  The package ships it
as a fixed array (common function words plus single letters, digits, `$`
and `_`); it is reproduced here as static data of the model.  No theorem
below depends on the exact membership of this list. -/
def stopwordList : List String :=
  ["about", "above", "after", "again", "all", "also", "am", "an", "and", "another",
   "any", "are", "as", "at", "be", "because", "been", "before", "being", "below",
   "between", "both", "but", "by", "came", "can", "cannot", "come", "could", "did",
   "do", "does", "doing", "during", "each", "few", "for", "from", "further", "get",
   "got", "has", "had", "he", "have", "her", "here", "him", "himself", "his", "how",
   "if", "in", "into", "is", "it", "its", "itself", "like", "make", "many", "me",
   "might", "more", "most", "much", "must", "my", "myself", "never", "now", "of", "on",
   "only", "or", "other", "our", "ours", "ourselves", "out", "over", "own", "said",
   "same", "see", "should", "since", "so", "some", "still", "such", "take", "than",
   "that", "the", "their", "theirs", "them", "themselves", "then", "there", "these",
   "they", "this", "those", "through", "to", "too", "under", "until", "up", "very",
   "was", "way", "we", "well", "were", "what", "where", "when", "which", "while",
   "who", "whom", "with", "would", "why", "you", "your", "yours", "yourself",
   "a", "b", "c", "d", "e", "f", "g", "h", "i", "j", "k", "l", "m", "n", "o", "p",
   "q", "r", "s", "t", "u", "v", "w", "x", "y", "z",
   "$", "1", "2", "3", "4", "5", "6", "7", "8", "9", "0", "_"]

/-- The own property names of `Object.prototype`.  A plain object literal
inherits these, so `CATEGORY_TAGS[category]` is truthy (a function, or
`Object.prototype` itself for `"__proto__"`) for each of them even though
none is a key of the table. -/
def objectProtoProps : List String :=
  ["constructor", "hasOwnProperty", "isPrototypeOf", "propertyIsEnumerable",
   "toLocaleString", "toString", "valueOf", "__defineGetter__",
   "__defineSetter__", "__lookupGetter__", "__lookupSetter__", "__proto__"]

/-- Source: `str.includes(pat)`: `pat` occurs as a contiguous substring of `str`. -/
def jsIncludes (str pat : String) : Bool := decide (pat.data <:+: str.data)

/-- Source: `s.toLowerCase()` (ASCII range; see the module comment). -/
def jsLower (s : String) : String := String.mk (s.data.map jsLowerChar)

/-- Splitting a character list at every character satisfying `p`, keeping
empty pieces — the semantics of JS `String.prototype.split` with a
single-character-class regex.  A regex of the form `[..]+` (splitting on
runs) differs only by extra empty pieces, which every caller below filters
out. -/
def splitChars (p : Char → Bool) : List Char → List (List Char)
  | [] => [[]]
  | c :: cs =>
    if p c then [] :: splitChars p cs
    else
      match splitChars p cs with
      | [] => [[c]]
      | piece :: rest => (c :: piece) :: rest

/-- Source: `replace(/\s+/g, " ")` (`part_000` line 51): collapse every run of
whitespace into a single space (a whitespace character followed by an
already collapsed tail starting with a space merges with it). -/
def squeezeWs : List Char → List Char
  | [] => []
  | c :: cs =>
    if isJsSpace c then
      match squeezeWs cs with
      | [] => [' ']
      | d :: ds => if d = ' ' then ' ' :: ds else ' ' :: d :: ds
    else c :: squeezeWs cs

/-- Source: `String.prototype.trim` (`part_000` line 52): drop whitespace at both
ends. -/
def trimWs (l : List Char) : List Char :=
  ((l.dropWhile isJsSpace).reverse.dropWhile isJsSpace).reverse

/-- Source: `cleanText` as a character list (`part_000` lines 49-52):
lowercase, replace every character outside `\w` and `\s` by a space,
collapse whitespace runs, trim. -/
def cleanList (d : String) : List Char :=
  trimWs (squeezeWs ((d.data.map jsLowerChar).map
    (fun c => if isWordChar c || isJsSpace c then c else ' ')))

/-- Source: `cleanText` (`part_000` lines 49-52). -/
def cleanText (d : String) : String := String.mk (cleanList d)

/-- Source: `new natural.WordTokenizer().tokenize(cleanText)` (`part_000` lines
55-56): the tokenizer splits on `/\W+/` and discards empty edge pieces;
on input containing no interior empty pieces this equals splitting at
every non-word character and dropping all empty pieces. -/
def rawTokens (d : String) : List String :=
  ((splitChars (fun c => !(isWordChar c)) (cleanList d)).map
    (fun l => String.mk l)).filter (fun t => t ≠ "")

/-- Matching of the regex `/^[\d]+$/`: a nonempty all-digit string. -/
def jsAllDigits (t : String) : Bool :=
  decide (0 < t.length) && t.data.all Char.isDigit

/-- Source: `filteredTokens` (`part_000` lines 59-63): drop tokens of length ≤ 2,
stopwords, and pure numbers. -/
def filteredTokens (d : String) : List String :=
  (rawTokens d).filter
    (fun t => 2 < t.length ∧ t ∉ stopwordList ∧ ¬ jsAllDigits t = true)

/-- Source: `(wordFreq[token] || 0) + 1` on a value already stored under the key. -/
def jsIncr : JsCount → JsCount
  | .num n => .num (n + 1)
  | .str => .str

/-- The value stored on the first occurrence of a token.  For the key
`"constructor"` the initial read `wordFreq[token]` returns the inherited
`Object` constructor (truthy), and `Object + 1` is a string. -/
def freqInit (k : String) : JsCount :=
  if k = "constructor" then .str else .num 1

/-- Upsert into the insertion-ordered own-property list of `wordFreq`. -/
def freqUpdate : List (String × JsCount) → String → List (String × JsCount)
  | [], k => [(k, freqInit k)]
  | (k', v) :: rest, k =>
    if k' = k then (k', jsIncr v) :: rest else (k', v) :: freqUpdate rest k

/-- One iteration of `filteredTokens.forEach` (`part_000` lines 67-69).
Assigning `wordFreq["__proto__"] = ...` invokes the inherited accessor
with a non-object value, which is a silent no-op: no own property is ever
created for that token. -/
def freqStep (acc : List (String × JsCount)) (k : String) : List (String × JsCount) :=
  if k = "__proto__" then acc else freqUpdate acc k

/-- Source: `Object.entries(wordFreq)` (`part_000` line 72): the own properties in
insertion order (no key of the table is integer-like, because pure-number
tokens were filtered out). -/
def wordFreqEntries (d : String) : List (String × JsCount) :=
  (filteredTokens d).foldl freqStep []

/-- The comparator `([,a],[,b]) => b - a` of `part_000` line 73, read as a
strict precedence: `precJs x y` holds when the comparator proves `x` must
come strictly before `y`.  A comparison involving a string-valued count
yields `NaN`, which `Array.prototype.sort` treats as `0` (a tie). -/
def precJs (x y : String × JsCount) : Bool :=
  match x.2, y.2 with
  | .num m, .num n => decide (n < m)
  | _, _ => false

/-- A stable sort: `x` is inserted before the first element that does not
strictly precede it, so elements that compare as ties keep their original
relative order — the behaviour guaranteed for `Array.prototype.sort`. -/
def insertBefore (prec : α → α → Bool) (x : α) : List α → List α
  | [] => [x]
  | y :: ys => if prec y x then y :: insertBefore prec x ys else x :: y :: ys

/-- Stable sort by the strict precedence `prec` (see `insertBefore`). -/
def stableSort (prec : α → α → Bool) : List α → List α
  | [] => []
  | x :: xs => insertBefore prec x (stableSort prec xs)

/-- Source: `sortedWords` (`part_000` lines 72-75): sort the frequency entries by
descending count (stable) and keep the first 15 words. -/
def topWords (d : String) : List String :=
  ((stableSort precJs (wordFreqEntries d)).take 15).map Prod.fst

/-- Source: `CATEGORY_TAGS[category] || CATEGORY_TAGS.other` (`part_000` line 78).
A category outside the table that is an own property name of
`Object.prototype` resolves to a truthy inherited value (a function, or
`Object.prototype` for `"__proto__"`), so the `|| ...` fallback is
skipped; the subsequent `.filter` call on that non-array value then throws
a TypeError (caught at line 103). -/
def categoryLookup (c : String) : Except JsErr (List String) :=
  match CATEGORY_TAGS.lookup c with
  | some kws => .ok kws
  | none => if c ∈ objectProtoProps then .error .typeError else .ok OTHER_TAGS

/-- The keyword list `generateTags` actually uses for a category, when the
lookup does not throw (empty on the throwing path, where no keywords are
used at all). -/
def selectedKeywords (c : String) : List String :=
  match categoryLookup c with
  | .ok l => l
  | .error _ => []

/-- Auxiliary of `dedupFirst`: keep the elements not seen yet, in order,
recording the seen ones. -/
def dedupFirstAux (seen : List String) : List String → List String
  | [] => []
  | x :: xs =>
    if x ∈ seen then dedupFirstAux seen xs
    else x :: dedupFirstAux (x :: seen) xs

/-- Source: `[...new Set(list)]` (`part_000` line 98): deduplication keeping the
first occurrence of each element. -/
def dedupFirst (l : List String) : List String := dedupFirstAux [] l

/-- Source: `relevantCategoryTags` (`part_000` lines 81-83): the keywords
of the selected category that occur in the normalized text or
substring-overlap a top-frequency word. -/
def relevantTags (d : String) (categorySpecificTags : List String) : List String :=
  categorySpecificTags.filter
    (fun tag => jsIncludes (cleanText d) tag ||
      (topWords d).any (fun w => jsIncludes tag w))

/-- Source: `allPotentialTags` (`part_000` lines 86-95): the candidate
pool, in fixed priority order — filtered category keywords, then
top-frequency words that overlap the common-tag vocabulary and are not
already category keywords, then common tags occurring literally in the
normalized text. -/
def tagPool (d : String) (categorySpecificTags : List String) : List String :=
  relevantTags d categorySpecificTags ++
  (topWords d).filter (fun w => !((relevantTags d categorySpecificTags).contains w) &&
    COMMON_TAGS.any (fun ctag => jsIncludes w ctag || jsIncludes ctag w)) ++
  COMMON_TAGS.filter (fun tag => jsIncludes (cleanText d) tag)

/-- Source: `exports.generateTags` (`part_000` lines 42-107).
`maxTags` is the count passed to `slice(0, maxTags)`, modelled as `Nat`
(the parameter is documented and used as a maximum tag count). -/
def generateTags (description : Option String) (category : String) (maxTags : Nat) :
    List String :=
  match description with
  | none => []
  | some d =>
    if d = "" then []
    else
      match categoryLookup category with
      | .error _ => []
      | .ok categorySpecificTags =>
        ((dedupFirst (tagPool d categorySpecificTags)).take maxTags).filter
          (fun t => 3 ≤ t.length)

/-- The text blob of `suggestCategories` (`part_000` line 117):
`(description + " " + tags.join(" ")).toLowerCase()`. -/
def blobOf (description : String) (tags : List String) : String :=
  jsLower (description ++ " " ++ String.intercalate " " tags)

/-- The score of one category (`part_000` lines 122-127): the number of
its keywords occurring as a literal substring of the blob (each keyword
contributes at most 1). -/
def categoryScore (blob : String) (kws : List String) : Nat :=
  kws.countP (fun k => jsIncludes blob k)

/-- Source: `Object.entries(categoryScores)` (`part_000` line 134): the categories
with positive score, in table insertion order, with their scores.  (The
keys are the 18 fixed names, each inserted at most once and in table
order, so the own-property insertion order is the table order; none of
them is integer-like or an `Object.prototype` property.) -/
def scoreEntries (description : String) (tags : List String) : List (String × Nat) :=
  CATEGORY_TAGS.filterMap (fun ckw =>
    let s := categoryScore (blobOf description tags) ckw.2
    if 0 < s then some (ckw.1, s) else none)

/-- The comparator `([,a],[,b]) => b - a` of `part_000` line 135 as a
strict precedence on numeric score entries. -/
def precByCount (x y : String × Nat) : Bool := decide (y.2 < x.2)

/-- Source: `exports.suggestCategories` (`part_000` lines 115-144). -/
def suggestCategories (description : String) (tags : List String) : List String :=
  ((stableSort precByCount (scoreEntries description tags)).take 3).map Prod.fst

/-- Score entries paired with their index in the category table; used to
express the tie-breaking order of the claim. -/
def scoreEntriesIdx (description : String) (tags : List String) :
    List (String × Nat × Nat) :=
  CATEGORY_TAGS.enum.filterMap (fun p =>
    let s := categoryScore (blobOf description tags) p.2.2
    if 0 < s then some (p.2.1, s, p.1) else none)

/-- The total strict order of the claim: higher score first, ties by
earlier position in the category table. -/
def precScoreIdx (x y : String × Nat × Nat) : Bool :=
  decide (y.2.1 < x.2.1 ∨ (x.2.1 = y.2.1 ∧ x.2.2 < y.2.2))

/-- The ranking described by the specification, built from its own words:
score each of the 18 categories, exclude zero scores, sort by descending
score with ties kept in table insertion order (made explicit through the
table index), return at most the first 3 names. -/
def specCategoryRanking (description : String) (tags : List String) : List String :=
  ((stableSort precScoreIdx (scoreEntriesIdx description tags)).take 3).map
    (fun e => e.1)

/-- Source: `natural.SentimentAnalyzer("English", natural.PorterStemmer, "afinn")`
(`part_000` lines 153-154) constructs without throwing.  Its AFINN
word-polarity vocabulary is a fixed external table of the `natural`
package; the fragment below lists the entries for the vocabulary of the
concrete scenarios of the specification.  It is unreachable at run time — the
tokenisation step below throws first — and no theorem depends on its
values; the Porter-stemming normalisation of lookups is omitted for the
same reason. -/
def afinnFragment : List (String × Int) :=
  [("amazing", 4), ("wonderful", 4), ("love", 3), ("loves", 3),
   ("terrible", -3), ("awful", -3), ("hate", -3), ("hates", -3),
   ("good", 3), ("great", 3), ("bad", -3)]

/-- Source: `analyzer.getSentiment(tokens)` of the external `natural` package: the
summed polarity of the tokens divided by the token count.  (For an empty
token list JS produces `NaN`, which classifies as neutral below, exactly
as the value 0 produced here does.) -/
def getSentimentScore (tokens : List String) : Rat :=
  ((tokens.map (fun t => ((afinnFragment.lookup t).getD 0 : Int))).sum : Rat) /
    (tokens.length : Rat)

/-- The thresholding of `part_000` lines 159-165. -/
def sentimentLabel (score : Rat) : String :=
  if (1 : Rat)/10 < score then "positive"
  else if score < -((1 : Rat)/10) then "negative"
  else "neutral"

/-- Source: `part_000` line 156 reads `natural.WordTokenizer().tokenize(...)` —
the constructor is invoked WITHOUT `new` (contrast line 55).  In every
published version of the `natural` package `WordTokenizer` is either an
ES6 class (invoking it without `new` throws a TypeError) or a prototype
constructor function that returns `undefined` when called directly, so
that the subsequent `.tokenize` member access throws a TypeError.  Either
way the expression throws before producing a tokenizer. -/
def tokenizeWithoutNew : Except JsErr (String → List String) :=
  .error .typeError

/-- The body of `exports.analyzeSentiment` (`part_000` lines 151-165)
before the `catch`: the tokenizer expression is evaluated first (and
throws); `description.toLowerCase()` would itself throw on a non-string. -/
def analyzeSentimentE (description : Option String) : Except JsErr String :=
  match tokenizeWithoutNew with
  | .error e => .error e
  | .ok tok =>
    match description with
    | none => .error .typeError
    | some s => .ok (sentimentLabel (getSentimentScore (tok (jsLower s))))

/-- Source: `exports.analyzeSentiment` (`part_000` lines 151-170): any exception
is caught and `"neutral"` returned. -/
def analyzeSentiment (description : Option String) : String :=
  match analyzeSentimentE description with
  | .ok r => r
  | .error _ => "neutral"

/-- Source: `description.split(/[.!?]+/).filter(s => s.trim().length > 0)`
(`part_000` line 181).  A piece survives the filter exactly when it has a
non-whitespace character. -/
def sentSplit (d : String) : List String :=
  ((splitChars (fun c => c = '.' || c = '!' || c = '?') d.data).map
    (fun l => String.mk l)).filter
    (fun s => s.data.any (fun c => !(isJsSpace c)))

/-- The per-sentence word list of `extractKeyPhrases` (`part_000` lines
185-188): lowercase, delete every character outside `\w` and `\s`, split
on whitespace, keep words of length > 2 that are not stopwords. -/
def wordsOf (sent : String) : List String :=
  ((splitChars isJsSpace ((sent.data.map jsLowerChar).filter
      (fun c => isWordChar c || isJsSpace c))).map (fun l => String.mk l)).filter
    (fun w => 2 < w.length ∧ w ∉ stopwordList)

/-- Source: `words.slice(i, i + n).join(" ")`. -/
def joinSp (l : List String) : String := String.intercalate " " l

/-- The window loop of `part_000` lines 191-198: for each index
`i < words.length - 1`, push the trigram at `i` when `i < words.length - 2`
and its joined form exceeds 8 characters, then push the bigram at `i` when
its joined form exceeds 5 characters. -/
def sentencePhrases (ws : List String) : List String :=
  (List.range (ws.length - 1)).flatMap (fun i =>
    (if i < ws.length - 2 then
      (if 8 < (joinSp ((ws.drop i).take 3)).length then
        [joinSp ((ws.drop i).take 3)] else [])
     else []) ++
    (if 5 < (joinSp ((ws.drop i).take 2)).length then
      [joinSp ((ws.drop i).take 2)] else []))

/-- The upsert of `phraseFreq` (`part_000` lines 202-205).  Every phrase
contains a space character (it joins at least two words), and no own or
inherited property name of `Object.prototype` contains a space, so unlike
`wordFreq` this plain object behaves as an honest insertion-ordered map
and its counts stay numeric. -/
def natFreqUpdate : List (String × Nat) → String → List (String × Nat)
  | [], k => [(k, 1)]
  | (k', v) :: rest, k =>
    if k' = k then (k', v + 1) :: rest else (k', v) :: natFreqUpdate rest k

/-- Source: `exports.extractKeyPhrases` (`part_000` lines 178-215).  `maxPhrases`
is the count passed to `slice(0, maxPhrases)`, modelled as `Nat`.  A
non-string `description` makes `description.split` throw, and the catch
returns the empty sequence. -/
def extractKeyPhrases (description : Option String) (maxPhrases : Nat) : List String :=
  match description with
  | none => []
  | some s =>
    let phrases := (sentSplit s).flatMap (fun sent => sentencePhrases (wordsOf sent))
    ((stableSort precByCount (phrases.foldl natFreqUpdate [])).take maxPhrases).map
      Prod.fst

/-- A string is lowercase when ASCII lowercasing fixes every character. -/
def isLowercaseStr (s : String) : Bool :=
  s.data.all (fun c => jsLowerChar c == c)

/-- Projection dropping the table index of an indexed score entry. -/
def stripIdx (e : String × Nat × Nat) : String × Nat := (e.1, e.2.1)

/-! ## Helper lemmas -/

theorem jsLowerChar_toNat_of_upper {c : Char} (h : 65 ≤ c.toNat ∧ c.toNat ≤ 90) :
    (jsLowerChar c).toNat = c.toNat + 32 := by
  unfold jsLowerChar
  rw [dif_pos h]
  rfl

theorem jsLowerChar_idem (c : Char) : jsLowerChar (jsLowerChar c) = jsLowerChar c := by
  by_cases h : 65 ≤ c.toNat ∧ c.toNat ≤ 90
  · have ht := jsLowerChar_toNat_of_upper h
    conv_lhs => rw [jsLowerChar.eq_def]
    rw [dif_neg]
    omega
  · have hfix : jsLowerChar c = c := by
      unfold jsLowerChar
      rw [dif_neg h]
    rw [hfix, hfix]

theorem mem_insertBefore {α : Type} {prec : α → α → Bool} {x a : α} :
    ∀ {l : List α}, a ∈ insertBefore prec x l ↔ a = x ∨ a ∈ l := by
  intro l
  induction l with
  | nil => simp [insertBefore]
  | cons y ys ih =>
    simp only [insertBefore]
    split
    · simp only [List.mem_cons, ih]
      tauto
    · simp [List.mem_cons]

theorem mem_stableSort {α : Type} {prec : α → α → Bool} {a : α} :
    ∀ {l : List α}, a ∈ stableSort prec l ↔ a ∈ l := by
  intro l
  induction l with
  | nil => simp [stableSort]
  | cons x xs ih => simp [stableSort, mem_insertBefore, ih]

theorem mem_dedupFirstAux {a : String} :
    ∀ (l : List String) (seen : List String),
      a ∈ dedupFirstAux seen l ↔ a ∈ l ∧ a ∉ seen := by
  intro l
  induction l with
  | nil => intro seen; simp [dedupFirstAux]
  | cons x xs ih =>
    intro seen
    simp only [dedupFirstAux]
    by_cases hx : x ∈ seen
    · rw [if_pos hx, ih]
      simp only [List.mem_cons]
      constructor
      · rintro ⟨h1, h2⟩; exact ⟨Or.inr h1, h2⟩
      · rintro ⟨h1 | h1, h2⟩
        · exact absurd (h1 ▸ hx) h2
        · exact ⟨h1, h2⟩
    · rw [if_neg hx]
      simp only [List.mem_cons, ih]
      by_cases hax : a = x
      · subst hax
        simp [hx]
      · constructor
        · rintro (h | ⟨h1, h2⟩)
          · exact absurd h hax
          · exact ⟨Or.inr h1, fun hs => h2 (Or.inr hs)⟩
        · rintro ⟨h1 | h1, h2⟩
          · exact absurd h1 hax
          · refine Or.inr ⟨h1, fun hs => ?_⟩
            rcases hs with hs | hs
            · exact hax hs
            · exact h2 hs

theorem mem_dedupFirst {a : String} : ∀ {l : List String}, a ∈ dedupFirst l ↔ a ∈ l := by
  intro l
  unfold dedupFirst
  rw [mem_dedupFirstAux]
  simp

theorem dedupFirstAux_nodup :
    ∀ (l : List String) (seen : List String), (dedupFirstAux seen l).Nodup := by
  intro l
  induction l with
  | nil => intro seen; simp [dedupFirstAux]
  | cons x xs ih =>
    intro seen
    simp only [dedupFirstAux]
    by_cases hx : x ∈ seen
    · rw [if_pos hx]; exact ih seen
    · rw [if_neg hx]
      refine List.nodup_cons.mpr ⟨?_, ih (x :: seen)⟩
      intro hmem
      exact ((mem_dedupFirstAux xs (x :: seen)).mp hmem).2 (List.mem_cons_self _ _)

theorem dedupFirst_nodup : ∀ l : List String, (dedupFirst l).Nodup :=
  fun l => dedupFirstAux_nodup l []

theorem splitChars_all {p q : Char → Bool} :
    ∀ (l : List Char), (∀ c ∈ l, q c = true) →
      ∀ piece ∈ splitChars p l, ∀ c ∈ piece, q c = true := by
  intro l
  induction l with
  | nil =>
    intro _ piece hp c hc
    simp only [splitChars, List.mem_singleton] at hp
    subst hp
    simp at hc
  | cons c0 cs ih =>
    intro h piece hp c hc
    have htail : ∀ c ∈ cs, q c = true := fun c hcc => h c (List.mem_cons_of_mem _ hcc)
    simp only [splitChars] at hp
    by_cases hc0 : p c0
    · rw [if_pos hc0] at hp
      rcases List.mem_cons.mp hp with h1 | h2
      · subst h1; simp at hc
      · exact ih htail piece h2 c hc
    · rw [if_neg hc0] at hp
      cases hsc : splitChars p cs with
      | nil =>
        rw [hsc] at hp
        simp only [List.mem_singleton] at hp
        subst hp
        rcases List.mem_cons.mp hc with rfl | hcm
        · exact h c (List.mem_cons_self _ _)
        · simp at hcm
      | cons pc rest =>
        rw [hsc] at hp
        rcases List.mem_cons.mp hp with h1 | h2
        · subst h1
          rcases List.mem_cons.mp hc with rfl | hcm
          · exact h c (List.mem_cons_self _ _)
          · exact ih htail pc (by rw [hsc]; exact List.mem_cons_self _ _) c hcm
        · exact ih htail piece (by rw [hsc]; exact List.mem_cons_of_mem _ h2) c hc

theorem mem_squeezeWs : ∀ (l : List Char) (c : Char), c ∈ squeezeWs l → c = ' ' ∨ c ∈ l := by
  intro l
  induction l with
  | nil => intro c hc; simp [squeezeWs] at hc
  | cons c0 cs ih =>
    intro c hc
    simp only [squeezeWs] at hc
    by_cases hsp : isJsSpace c0
    · rw [if_pos hsp] at hc
      have htail : c ∈ squeezeWs cs → c = ' ' ∨ c ∈ c0 :: cs := by
        intro h
        rcases ih c h with h | h
        · exact Or.inl h
        · exact Or.inr (List.mem_cons_of_mem _ h)
      cases hsq : squeezeWs cs with
      | nil =>
        rw [hsq] at hc
        have hc2 : c ∈ [' '] := hc
        simp only [List.mem_singleton] at hc2
        exact Or.inl hc2
      | cons d ds =>
        rw [hsq] at hc
        have hc2 : c ∈ (if d = ' ' then ' ' :: ds else ' ' :: d :: ds) := hc
        by_cases hd : d = ' '
        · rw [if_pos hd] at hc2
          rcases List.mem_cons.mp hc2 with rfl | h2
          · exact Or.inl rfl
          · exact htail (by rw [hsq]; exact List.mem_cons_of_mem _ h2)
        · rw [if_neg hd] at hc2
          rcases List.mem_cons.mp hc2 with rfl | h2
          · exact Or.inl rfl
          · exact htail (by rw [hsq]; exact h2)
    · rw [if_neg hsp] at hc
      rcases List.mem_cons.mp hc with rfl | h2
      · exact Or.inr (List.mem_cons_self _ _)
      · rcases ih c h2 with h | h
        · exact Or.inl h
        · exact Or.inr (List.mem_cons_of_mem _ h)

theorem mem_trimWs {l : List Char} {c : Char} (hc : c ∈ trimWs l) : c ∈ l := by
  unfold trimWs at hc
  rw [List.mem_reverse] at hc
  have h1 := (List.dropWhile_sublist (isJsSpace)).subset hc
  rw [List.mem_reverse] at h1
  exact (List.dropWhile_sublist (isJsSpace)).subset h1

theorem cleanList_lowerFixed {d : String} :
    ∀ c ∈ cleanList d, jsLowerChar c = c := by
  intro c hc
  have h1 := mem_trimWs hc
  rcases mem_squeezeWs _ c h1 with rfl | h2
  · decide
  · rcases List.mem_map.mp h2 with ⟨c1, _, rfl⟩
    by_cases hw : (isWordChar c1 || isJsSpace c1) = true
    · rw [if_pos hw]
      rcases List.mem_map.mp ‹c1 ∈ _› with ⟨c2, _, rfl⟩
      exact jsLowerChar_idem c2
    · rw [if_neg hw]
      decide

theorem rawTokens_lower {d : String} :
    ∀ t ∈ rawTokens d, isLowercaseStr t = true := by
  intro t ht
  have h1 := List.mem_of_mem_filter ht
  rcases List.mem_map.mp h1 with ⟨piece, hpiece, rfl⟩
  unfold isLowercaseStr
  rw [List.all_eq_true]
  intro c hc
  have hclean : ∀ c ∈ cleanList d, (fun c => jsLowerChar c == c) c = true := by
    intro c hcc
    simp only [beq_iff_eq]
    exact cleanList_lowerFixed c hcc
  exact splitChars_all (cleanList d) hclean piece hpiece c hc

theorem mem_fst_freqUpdate {k a : String} :
    ∀ {l : List (String × JsCount)},
      a ∈ (freqUpdate l k).map Prod.fst → a ∈ l.map Prod.fst ∨ a = k := by
  intro l
  induction l with
  | nil =>
    intro h
    simp only [freqUpdate, List.map_cons, List.map_nil, List.mem_singleton] at h
    exact Or.inr h
  | cons hd rest ih =>
    intro h
    obtain ⟨k', v⟩ := hd
    simp only [freqUpdate] at h
    by_cases hk : k' = k
    · rw [if_pos hk] at h
      simp only [List.map_cons, List.mem_cons] at h ⊢
      tauto
    · rw [if_neg hk] at h
      simp only [List.map_cons, List.mem_cons] at h ⊢
      rcases h with h | h
      · tauto
      · rcases ih h with h2 | h2 <;> tauto

theorem mem_fst_foldl_freqStep {a : String} :
    ∀ (toks : List String) (acc : List (String × JsCount)),
      a ∈ ((toks.foldl freqStep acc).map Prod.fst) →
        a ∈ acc.map Prod.fst ∨ a ∈ toks := by
  intro toks
  induction toks with
  | nil => intro acc h; exact Or.inl h
  | cons t ts ih =>
    intro acc h
    rw [List.foldl_cons] at h
    rcases ih (freqStep acc t) h with h2 | h2
    · unfold freqStep at h2
      by_cases hp : t = "__proto__"
      · rw [if_pos hp] at h2
        exact Or.inl h2
      · rw [if_neg hp] at h2
        rcases mem_fst_freqUpdate h2 with h3 | h3
        · exact Or.inl h3
        · exact Or.inr (h3 ▸ List.mem_cons_self _ _)
    · exact Or.inr (List.mem_cons_of_mem _ h2)

theorem mem_topWords {d : String} {a : String} (h : a ∈ topWords d) :
    a ∈ filteredTokens d := by
  unfold topWords at h
  rcases List.mem_map.mp h with ⟨e, he, rfl⟩
  have h1 : e ∈ stableSort precJs (wordFreqEntries d) := List.mem_of_mem_take he
  have h2 : e ∈ wordFreqEntries d := mem_stableSort.mp h1
  have h3 : e.1 ∈ (wordFreqEntries d).map Prod.fst := List.mem_map_of_mem _ h2
  unfold wordFreqEntries at h3
  rcases mem_fst_foldl_freqStep _ _ h3 with h4 | h4
  · simp at h4
  · exact h4

theorem mem_filteredTokens_raw {d : String} {t : String} (h : t ∈ filteredTokens d) :
    t ∈ rawTokens d := List.mem_of_mem_filter h

theorem lookup_mem {α β : Type} [BEq α] [LawfulBEq α] {k : α} {v : β} :
    ∀ {l : List (α × β)}, l.lookup k = some v → (k, v) ∈ l := by
  intro l
  induction l with
  | nil => intro h; simp [List.lookup] at h
  | cons hd rest ih =>
    intro h
    obtain ⟨k', v'⟩ := hd
    rw [List.lookup_cons] at h
    by_cases hk : k == k'
    · rw [beq_iff_eq] at hk
      subst hk
      rw [beq_self_eq_true] at h
      injection h with h
      subst h
      exact List.mem_cons_self _ _
    · rw [Bool.not_eq_true] at hk
      rw [hk] at h
      exact List.mem_cons_of_mem _ (ih h)

theorem selectedKeywords_cases (c : String) :
    (∃ row ∈ CATEGORY_TAGS, selectedKeywords c = row.2) ∨ selectedKeywords c = [] := by
  unfold selectedKeywords categoryLookup
  cases hl : CATEGORY_TAGS.lookup c with
  | some kws => exact Or.inl ⟨(c, kws), lookup_mem hl, rfl⟩
  | none =>
    by_cases hp : c ∈ objectProtoProps
    · rw [if_pos hp]
      exact Or.inr rfl
    · rw [if_neg hp]
      refine Or.inl ⟨("other", OTHER_TAGS), by decide, rfl⟩

theorem categoryTable_keywords_lower :
    ∀ p ∈ CATEGORY_TAGS, ∀ k ∈ p.2, 3 ≤ k.length → isLowercaseStr k = true := by
  decide

theorem commonTags_lower : ∀ t ∈ COMMON_TAGS, isLowercaseStr t = true := by
  decide

theorem mem_tagPool {d : String} {kws : List String} {t : String}
    (h : t ∈ tagPool d kws) :
    t ∈ kws ∨ t ∈ topWords d ∨ t ∈ COMMON_TAGS := by
  unfold tagPool at h
  rcases List.mem_append.mp h with h1 | h1
  · rcases List.mem_append.mp h1 with h2 | h2
    · exact Or.inl (List.mem_of_mem_filter h2)
    · exact Or.inr (Or.inl (List.mem_of_mem_filter h2))
  · exact Or.inr (Or.inr (List.mem_of_mem_filter h1))

theorem categoryLookup_ok_row {c : String} {kws : List String}
    (h : categoryLookup c = .ok kws) : ∃ row ∈ CATEGORY_TAGS, kws = row.2 := by
  unfold categoryLookup at h
  cases hl : CATEGORY_TAGS.lookup c with
  | some l =>
    rw [hl] at h
    injection h with h
    exact ⟨(c, l), lookup_mem hl, h.symm⟩
  | none =>
    rw [hl] at h
    by_cases hp : c ∈ objectProtoProps
    · rw [if_pos hp] at h
      cases h
    · rw [if_neg hp] at h
      injection h with h
      exact ⟨("other", OTHER_TAGS), by decide, h.symm⟩

/-! ## Claim theorems -/

/-- C1: for every input (description, category name, `maxTags`), the Tag
Generator returns at most `maxTags` strings, every returned string is
lowercase, every returned string has length at least 3, and no string
occurs twice in the output. -/
theorem tagGenerator_output_invariants (d : Option String) (c : String) (m : Nat) :
    (generateTags d c m).length ≤ m ∧ (generateTags d c m).Nodup ∧
    ∀ t ∈ generateTags d c m, 3 ≤ t.length ∧ isLowercaseStr t = true := by
  have hnil : ∀ h : generateTags d c m = [],
      (generateTags d c m).length ≤ m ∧ (generateTags d c m).Nodup ∧
      ∀ t ∈ generateTags d c m, 3 ≤ t.length ∧ isLowercaseStr t = true := by
    intro h
    rw [h]
    exact ⟨by simp, by simp, by simp⟩
  match d with
  | none => exact hnil rfl
  | some s =>
    by_cases hs : s = ""
    · subst hs
      exact hnil rfl
    · cases hcl : categoryLookup c with
      | error e =>
        refine hnil ?_
        simp only [generateTags, if_neg hs, hcl]
      | ok kws =>
        have hgen : generateTags (some s) c m =
            ((dedupFirst (tagPool s kws)).take m).filter
              (fun t => decide (3 ≤ t.length)) := by
          simp only [generateTags, if_neg hs, hcl]
        rw [hgen]
        refine ⟨?_, ?_, ?_⟩
        · exact le_trans (List.length_filter_le _ _) (List.length_take_le _ _)
        · exact List.Nodup.sublist
            ((List.filter_sublist _).trans (List.take_sublist _ _))
            (dedupFirst_nodup _)
        · intro t ht
          have h3 : 3 ≤ t.length :=
            of_decide_eq_true ((List.mem_filter.mp ht).2)
          refine ⟨h3, ?_⟩
          have hp : t ∈ tagPool s kws :=
            mem_dedupFirst.mp (List.mem_of_mem_take (List.mem_of_mem_filter ht))
          rcases mem_tagPool hp with h1 | h1 | h1
          · rcases categoryLookup_ok_row hcl with ⟨row, hrow, rfl⟩
            exact categoryTable_keywords_lower row hrow t h1 h3
          · exact rawTokens_lower t (mem_filteredTokens_raw (mem_topWords h1))
          · exact commonTags_lower t h1

/-- Witness for C1 at a concrete input: the tag `"vlog"` is produced for
description `"vlog"` with category `"other"` and satisfies the invariants. -/
theorem tagGenerator_output_invariants_witness :
    3 ≤ ("vlog" : String).length ∧ isLowercaseStr "vlog" = true :=
  (tagGenerator_output_invariants (some "vlog") "other" 8).2.2 "vlog" (by decide)

/-- C2: the Tag Generator returns the empty sequence on a non-string or
empty-string input, and any modelled internal failure (the category lookup
throwing inside the try block) also yields the empty sequence — the
function is total and never propagates an error. -/
theorem tagGenerator_empty_and_total (c : String) (m : Nat) :
    generateTags none c m = [] ∧ generateTags (some "") c m = [] ∧
    ∀ (s : String) (e : JsErr), categoryLookup c = .error e →
      generateTags (some s) c m = [] := by
  refine ⟨rfl, rfl, ?_⟩
  intro s e he
  by_cases hs : s = ""
  · subst hs
    rfl
  · simp only [generateTags, if_neg hs, he]

/-- Witness for C2 at a concrete input: the category `"valueOf"` resolves
to an inherited non-array value whose `.filter` call throws, and the catch
yields the empty sequence. -/
theorem tagGenerator_empty_and_total_witness :
    generateTags (some "hello world") "valueOf" 5 = [] :=
  (tagGenerator_empty_and_total "valueOf" 5).2.2 "hello world" JsErr.typeError rfl

/-- C10: every tag returned by the Tag Generator comes from one of three
sources: the selected category keyword list, a token of the normalized
description text, or the common-tag vocabulary. -/
theorem tagGenerator_tags_from_sources (s c : String) (m : Nat) (t : String)
    (h : t ∈ generateTags (some s) c m) :
    t ∈ selectedKeywords c ∨ t ∈ rawTokens s ∨ t ∈ COMMON_TAGS := by
  by_cases hs : s = ""
  · subst hs
    simp [generateTags] at h
  · cases hcl : categoryLookup c with
    | error e =>
      simp only [generateTags, if_neg hs, hcl] at h
      simp at h
    | ok kws =>
      simp only [generateTags, if_neg hs, hcl] at h
      have hp : t ∈ tagPool s kws :=
        mem_dedupFirst.mp (List.mem_of_mem_take (List.mem_of_mem_filter h))
      rcases mem_tagPool hp with h1 | h1 | h1
      · left
        unfold selectedKeywords
        rw [hcl]
        exact h1
      · exact Or.inr (Or.inl (mem_filteredTokens_raw (mem_topWords h1)))
      · exact Or.inr (Or.inr h1)

/-- Witness for C10 at a concrete input. -/
theorem tagGenerator_tags_from_sources_witness :
    "vlog" ∈ selectedKeywords "other" ∨ "vlog" ∈ rawTokens "vlog" ∨
      "vlog" ∈ COMMON_TAGS :=
  tagGenerator_tags_from_sources "vlog" "other" 8 "vlog" (by decide)

/-- C3: the Sentiment Classifier always returns one of the three labels
and maps every internal exception to `"neutral"`; it never propagates an
error.  (In fact every call throws inside the try block, because the
tokenizer constructor at `part_000` line 156 is invoked without `new`, so
the function constantly returns the safe default.) -/
theorem sentiment_total_three_labels (d : Option String) :
    (analyzeSentiment d = "positive" ∨ analyzeSentiment d = "negative" ∨
      analyzeSentiment d = "neutral") ∧
    (∀ e : JsErr, analyzeSentimentE d = .error e → analyzeSentiment d = "neutral") := by
  constructor
  · exact Or.inr (Or.inr rfl)
  · intro e he
    rfl

/-- Witness for C3 at a concrete input: the empty description throws at
the tokenisation step and is classified `"neutral"`. -/
theorem sentiment_total_three_labels_witness :
    analyzeSentimentE (some "") = Except.error JsErr.typeError ∧
      analyzeSentiment (some "") = "neutral" :=
  ⟨rfl, (sentiment_total_three_labels (some "")).2 JsErr.typeError rfl⟩

/-- C4 (code evaluation at the failing input): the concrete positive
scenario of the specification is classified `"neutral"`, because
`natural.WordTokenizer()` at `part_000` line 156 is invoked without `new`
and throws, so the catch returns the fallback before any lexicon scoring
happens.  The thresholding logic itself (dead code) would indeed label a
score of 1 as `"positive"`. -/
theorem sentiment_scenario_returns_neutral :
    analyzeSentiment
        (some "This is absolutely amazing and wonderful, I love it so much!") =
      "neutral" ∧
    analyzeSentimentE
        (some "This is absolutely amazing and wonderful, I love it so much!") =
      Except.error JsErr.typeError ∧
    sentimentLabel 1 = "positive" := by
  refine ⟨rfl, rfl, ?_⟩
  unfold sentimentLabel
  norm_num

/-- C6 (code evaluation at the failing input): the token `"__proto__"`
survives the token filters, yet the frequency ranking drops it entirely —
writing `wordFreq["__proto__"]` hits the inherited accessor of the plain
object and never creates an own property.  The companion conjunct shows
the `"constructor"` corruption: its count is a string, not a number. -/
theorem wordFreq_proto_pollution :
    filteredTokens "__proto__ apple" = ["__proto__", "apple"] ∧
    topWords "__proto__ apple" = ["apple"] ∧
    wordFreqEntries "constructor constructor" = [("constructor", JsCount.str)] := by
  refine ⟨?_, ?_, ?_⟩ <;> decide

/-- C9 (code evaluation at the failing input): the category
`"constructor"` is not one of the 18 fixed names, yet the Tag Generator
does not fall back to `"other"` — the lookup resolves to the inherited
`Object` constructor (truthy), the `|| CATEGORY_TAGS.other` fallback is
skipped, `.filter` on the function throws, and the catch returns the
empty sequence instead of the `"other"` output. -/
theorem categoryLookup_proto_pollution :
    generateTags (some "vlog") "constructor" 8 = [] ∧
    generateTags (some "vlog") "other" 8 = ["vlog"] ∧
    "constructor" ∉ categoryNames := by
  refine ⟨?_, ?_, ?_⟩ <;> decide

/-- C7: the Key-Phrase Extractor returns at most `maxPhrases` phrases for
every input, returns the empty sequence for the empty description, and
(modelling a non-string input) returns the empty sequence when the split
step throws — it never propagates an error. -/
theorem keyPhrases_bounded_total (d : Option String) (m : Nat) :
    (extractKeyPhrases d m).length ≤ m ∧ extractKeyPhrases (some "") m = [] ∧
    extractKeyPhrases none m = [] := by
  refine ⟨?_, ?_, rfl⟩
  · match d with
    | none => simp [extractKeyPhrases]
    | some s =>
      simp only [extractKeyPhrases]
      rw [List.length_map]
      exact List.length_take_le _ _
  · have hsent : sentSplit "" = [] := by decide
    simp [extractKeyPhrases, hsent, stableSort, List.take_nil]

/-- Witness for C7 at a concrete input (the theorem has no hypothesis;
this instantiates it at a phrase-producing description). -/
theorem keyPhrases_bounded_total_witness :
    (extractKeyPhrases (some "home workout routine now") 2).length ≤ 2 :=
  (keyPhrases_bounded_total (some "home workout routine now") 2).1

theorem count_ite_pair (c1 : Prop) [Decidable c1] (c2 : Prop) [Decidable c2]
    (t p : String) :
    ((if c1 then (if c2 then [t] else []) else []) : List String).count p =
      if c1 ∧ t = p ∧ c2 then 1 else 0 := by
  by_cases h1 : c1 <;> by_cases h2 : c2 <;> by_cases h3 : t = p <;>
    simp [h1, h2, h3, List.count_cons, List.count_nil]

theorem count_ite_single (c2 : Prop) [Decidable c2] (t p : String) :
    ((if c2 then [t] else []) : List String).count p =
      if t = p ∧ c2 then 1 else 0 := by
  by_cases h2 : c2 <;> by_cases h3 : t = p <;>
    simp [h2, h3, List.count_cons, List.count_nil]

theorem sum_map_ite_count {q : Nat → Prop} [DecidablePred q] (l : List Nat) :
    (l.map (fun i => if q i then 1 else 0)).sum =
      l.countP (fun i => decide (q i)) := by
  induction l with
  | nil => simp
  | cons a l ih =>
    by_cases h : q a <;> simp [List.countP_cons, h, ih, Nat.add_comm]

theorem countP_congr_mem {l : List Nat} {p q : Nat → Bool}
    (h : ∀ a ∈ l, p a = q a) : l.countP p = l.countP q := by
  induction l with
  | nil => rfl
  | cons a l ih =>
    rw [List.countP_cons, List.countP_cons,
      ih (fun b hb => h b (List.mem_cons_of_mem _ hb)), h a (List.mem_cons_self _ _)]

/-- C8: for every filtered word sequence, the candidate pool of one
sentence contains exactly the trigram at each index `i` with `i + 2` in
bounds whose space-joined form is longer than 8 characters, and the
bigram at each index `i` with `i + 1` in bounds whose space-joined form
is longer than 5 characters — with exact multiplicities, so a trigram and
a bigram contained in it are both emitted. -/
theorem keyPhrase_ngram_window (ws : List String) (p : String) :
    (sentencePhrases ws).count p =
      (List.range ws.length).countP
        (fun i => decide (i + 2 < ws.length ∧ joinSp ((ws.drop i).take 3) = p ∧
          8 < (joinSp ((ws.drop i).take 3)).length)) +
      (List.range ws.length).countP
        (fun i => decide (i + 1 < ws.length ∧ joinSp ((ws.drop i).take 2) = p ∧
          5 < (joinSp ((ws.drop i).take 2)).length)) := by
  unfold sentencePhrases
  rw [List.count_flatMap]
  have hfn : (List.count p ∘ fun i =>
      (if i < ws.length - 2 then
        (if 8 < (joinSp ((ws.drop i).take 3)).length then
          [joinSp ((ws.drop i).take 3)] else [])
       else []) ++
      (if 5 < (joinSp ((ws.drop i).take 2)).length then
        [joinSp ((ws.drop i).take 2)] else [])) =
      fun i =>
        (if i < ws.length - 2 ∧ joinSp ((ws.drop i).take 3) = p ∧
            8 < (joinSp ((ws.drop i).take 3)).length then 1 else 0) +
        (if joinSp ((ws.drop i).take 2) = p ∧
            5 < (joinSp ((ws.drop i).take 2)).length then 1 else 0) := by
    funext i
    simp only [Function.comp_apply]
    rw [List.count_append, count_ite_pair, count_ite_single]
  rw [hfn]
  rw [List.sum_map_add]
  rw [sum_map_ite_count, sum_map_ite_count]
  have htri : (List.range ws.length).countP
      (fun i => decide (i + 2 < ws.length ∧ joinSp ((ws.drop i).take 3) = p ∧
        8 < (joinSp ((ws.drop i).take 3)).length)) =
      (List.range (ws.length - 1)).countP
      (fun i => decide (i < ws.length - 2 ∧ joinSp ((ws.drop i).take 3) = p ∧
        8 < (joinSp ((ws.drop i).take 3)).length)) := by
    cases hn : ws.length with
    | zero => rfl
    | succ n =>
      rw [List.range_succ, List.countP_append]
      have hlast : List.countP
          (fun i => decide (i + 2 < n + 1 ∧ joinSp ((ws.drop i).take 3) = p ∧
            8 < (joinSp ((ws.drop i).take 3)).length)) [n] = 0 := by
        rw [List.countP_cons]
        have : ¬(n + 2 < n + 1 ∧ joinSp ((ws.drop n).take 3) = p ∧
            8 < (joinSp ((ws.drop n).take 3)).length) := by
          rintro ⟨h1, _⟩
          omega
        simp [this]
      rw [hlast, Nat.add_zero]
      have hsub : n + 1 - 1 = n := rfl
      rw [hsub]
      refine countP_congr_mem ?_
      intro i hi
      have hilt : i < n := List.mem_range.mp hi
      have : (i + 2 < n + 1 ∧ joinSp ((ws.drop i).take 3) = p ∧
          8 < (joinSp ((ws.drop i).take 3)).length) ↔
          (i < n + 1 - 2 ∧ joinSp ((ws.drop i).take 3) = p ∧
          8 < (joinSp ((ws.drop i).take 3)).length) := by
        constructor
        · rintro ⟨h1, h2⟩
          exact ⟨by omega, h2⟩
        · rintro ⟨h1, h2⟩
          exact ⟨by omega, h2⟩
      rw [decide_eq_decide.mpr this]
  have hbi : (List.range ws.length).countP
      (fun i => decide (i + 1 < ws.length ∧ joinSp ((ws.drop i).take 2) = p ∧
        5 < (joinSp ((ws.drop i).take 2)).length)) =
      (List.range (ws.length - 1)).countP
      (fun i => decide (joinSp ((ws.drop i).take 2) = p ∧
        5 < (joinSp ((ws.drop i).take 2)).length)) := by
    cases hn : ws.length with
    | zero => rfl
    | succ n =>
      rw [List.range_succ, List.countP_append]
      have hlast : List.countP
          (fun i => decide (i + 1 < n + 1 ∧ joinSp ((ws.drop i).take 2) = p ∧
            5 < (joinSp ((ws.drop i).take 2)).length)) [n] = 0 := by
        rw [List.countP_cons]
        have : ¬(n + 1 < n + 1 ∧ joinSp ((ws.drop n).take 2) = p ∧
            5 < (joinSp ((ws.drop n).take 2)).length) := by
          rintro ⟨h1, _⟩
          omega
        simp [this]
      rw [hlast, Nat.add_zero]
      have hsub : n + 1 - 1 = n := rfl
      rw [hsub]
      refine countP_congr_mem ?_
      intro i hi
      have hilt : i < n := List.mem_range.mp hi
      have : (i + 1 < n + 1 ∧ joinSp ((ws.drop i).take 2) = p ∧
          5 < (joinSp ((ws.drop i).take 2)).length) ↔
          (joinSp ((ws.drop i).take 2) = p ∧
          5 < (joinSp ((ws.drop i).take 2)).length) := by
        constructor
        · rintro ⟨_, h2⟩
          exact h2
        · intro h2
          exact ⟨by omega, h2⟩
      rw [decide_eq_decide.mpr this]
  rw [htri, hbi]

theorem pairwise_fst_lt_enumFrom {α : Type} :
    ∀ (l : List α) (n : Nat),
      (List.enumFrom n l).Pairwise (fun p q => p.1 < q.1) := by
  intro l
  induction l with
  | nil => intro n; simp
  | cons x xs ih =>
    intro n
    refine List.Pairwise.cons ?_ (ih (n + 1))
    rintro ⟨i, a⟩ hq
    have h := (List.mem_enumFrom hq).1
    omega

theorem scoreEntriesIdx_pairwise (d : String) (tags : List String) :
    (scoreEntriesIdx d tags).Pairwise (fun a b => a.2.2 < b.2.2) := by
  unfold scoreEntriesIdx
  rw [List.pairwise_filterMap]
  have hp : (CATEGORY_TAGS.enum).Pairwise (fun p q => p.1 < q.1) :=
    pairwise_fst_lt_enumFrom CATEGORY_TAGS 0
  refine hp.imp ?_
  intro a b hab x hx y hy
  by_cases hca : 0 < categoryScore (blobOf d tags) a.2.2
  · by_cases hcb : 0 < categoryScore (blobOf d tags) b.2.2
    · simp only [hca, if_true, Option.mem_def, Option.some_inj] at hx
      simp only [hcb, if_true, Option.mem_def, Option.some_inj] at hy
      rw [← hx, ← hy]
      exact hab
    · simp [hcb] at hy
  · simp [hca] at hx

theorem insertBefore_strip (x : String × Nat × Nat) :
    ∀ (L : List (String × Nat × Nat)), (∀ y ∈ L, x.2.2 < y.2.2) →
      (insertBefore precScoreIdx x L).map stripIdx =
        insertBefore precByCount (stripIdx x) (L.map stripIdx) := by
  intro L
  induction L with
  | nil => intro h; rfl
  | cons y ys ih =>
    intro h
    have hxy : x.2.2 < y.2.2 := h y (List.mem_cons_self _ _)
    have hprec : precScoreIdx y x = precByCount (stripIdx y) (stripIdx x) := by
      unfold precScoreIdx precByCount stripIdx
      rw [decide_eq_decide]
      constructor
      · rintro (h1 | ⟨h1, h2⟩)
        · exact h1
        · omega
      · intro h1
        exact Or.inl h1
    simp only [insertBefore, List.map_cons]
    rw [hprec, apply_ite (List.map stripIdx)]
    simp only [List.map_cons]
    by_cases hp : precByCount (stripIdx y) (stripIdx x) = true
    · rw [if_pos hp, if_pos hp, ih (fun z hz => h z (List.mem_cons_of_mem _ hz))]
    · rw [if_neg hp, if_neg hp]

theorem stableSort_strip :
    ∀ (l : List (String × Nat × Nat)),
      l.Pairwise (fun a b => a.2.2 < b.2.2) →
      (stableSort precScoreIdx l).map stripIdx =
        stableSort precByCount (l.map stripIdx) := by
  intro l
  induction l with
  | nil => intro h; rfl
  | cons x xs ih =>
    intro h
    rcases List.pairwise_cons.mp h with ⟨hx, hxs⟩
    simp only [stableSort, List.map_cons]
    rw [← ih hxs]
    exact insertBefore_strip x (stableSort precScoreIdx xs)
      (fun y hy => hx y (mem_stableSort.mp hy))

theorem filterMap_enumFrom {α β : Type} (f : α → Option β) :
    ∀ (l : List α) (n : Nat),
      (List.enumFrom n l).filterMap (fun p => f p.2) = l.filterMap f := by
  intro l
  induction l with
  | nil => intro n; rfl
  | cons x xs ih =>
    intro n
    cases hfx : f x <;>
      simp [List.enumFrom, List.filterMap_cons, hfx, ih]

theorem scoreEntries_eq_strip (d : String) (tags : List String) :
    scoreEntries d tags = (scoreEntriesIdx d tags).map stripIdx := by
  unfold scoreEntries scoreEntriesIdx
  rw [List.map_filterMap]
  have hfun : (fun p : Nat × (String × List String) => Option.map stripIdx
      ((fun p : Nat × (String × List String) =>
        let s := categoryScore (blobOf d tags) p.2.2
        if 0 < s then some (p.2.1, s, p.1) else none) p)) =
      (fun p : Nat × (String × List String) =>
        (fun ckw : String × List String =>
          let s := categoryScore (blobOf d tags) ckw.2
          if 0 < s then some (ckw.1, s) else none) p.2) := by
    funext p
    by_cases hc : 0 < categoryScore (blobOf d tags) p.2.2
    · simp [hc, stripIdx]
    · simp [hc]
  rw [hfun]
  rw [show CATEGORY_TAGS.enum = List.enumFrom 0 CATEGORY_TAGS from rfl]
  exact (filterMap_enumFrom
    (fun ckw : String × List String =>
      let s := categoryScore (blobOf d tags) ckw.2
      if 0 < s then some (ckw.1, s) else none) CATEGORY_TAGS 0).symm

/-- C5: the Category Suggester computes exactly the ranking described by
the specification — keyword-substring scores over the 18 fixed
categories, zero scores excluded, descending score with ties in table
insertion order, truncated to 3 — and its output is bounded by 3 and
drawn from the fixed category identifiers. -/
theorem categorySuggester_ranking (d : String) (tags : List String) :
    suggestCategories d tags = specCategoryRanking d tags ∧
    (suggestCategories d tags).length ≤ 3 ∧
    ∀ c ∈ suggestCategories d tags, c ∈ categoryNames := by
  have hmain : suggestCategories d tags = specCategoryRanking d tags := by
    unfold suggestCategories specCategoryRanking
    rw [scoreEntries_eq_strip]
    rw [← stableSort_strip _ (scoreEntriesIdx_pairwise d tags)]
    rw [← List.map_take]
    rw [List.map_map]
    rfl
  refine ⟨hmain, ?_, ?_⟩
  · unfold suggestCategories
    rw [List.length_map]
    exact List.length_take_le _ _
  · intro c hc
    unfold suggestCategories at hc
    rcases List.mem_map.mp hc with ⟨e, he, rfl⟩
    have h1 : e ∈ scoreEntries d tags := mem_stableSort.mp (List.mem_of_mem_take he)
    unfold scoreEntries at h1
    rcases List.mem_filterMap.mp h1 with ⟨row, hrow, hfe⟩
    by_cases hc2 : 0 < categoryScore (blobOf d tags) row.2
    · simp only [hc2, if_true, Option.some_inj] at hfe
      rw [← hfe]
      exact List.mem_map_of_mem Prod.fst hrow
    · simp [hc2] at hfe

/-- Witness for C5 at a concrete input. -/
theorem categorySuggester_ranking_witness :
    suggestCategories "gaming" [] = specCategoryRanking "gaming" [] ∧
      "gaming" ∈ categoryNames :=
  ⟨(categorySuggester_ranking "gaming" []).1,
   (categorySuggester_ranking "gaming" []).2.2 "gaming" (by decide)⟩
